import Mathlib

/-
Verification of the metadata text parser and dependency extractor of
pip-browse (src/pip_browse/metadata_parser.py, parse_metadata; and
src/pip_browse/core.py, PyPIBrowser.extract_dependencies).

Strings are embedded as lists of characters (`Str`).  Python's implicit
whitespace set for str.strip / regex \s is modelled by the six ASCII
whitespace characters (exotic Unicode whitespace and the rare extra
line-boundary characters of str.splitlines are not modelled).  The parser
is embedded as an `Option`-valued function: `none` models a raised
exception (the dictionary access `result[key]` and the indexing
`result[key][-1]` in the continuation branch are the only places the
Python code could in principle raise); everything else is total exactly as
the source is.
-/

namespace PipBrowse

/-- Character strings, embedded as lists of characters. -/
abbrev Str := List Char

/-- Whitespace characters of Python's `str.strip()` and of the regex
class backslash-s (ASCII part). -/
def isPySpace (c : Char) : Bool :=
  c = ' ' || c = '\t' || c = '\n' || c = '\r' || c = '\x0b' || c = '\x0c'

/-- Remove trailing characters satisfying `isPySpace`. -/
def stripEnd : Str → Str
  | [] => []
  | c :: t =>
    match stripEnd t with
    | [] => if isPySpace c then [] else [c]
    | r => c :: r

/-- Python `str.strip()`: drop whitespace from both ends. -/
def pyStrip (s : Str) : Str := stripEnd (s.dropWhile isPySpace)

/-- Python `str.splitlines()` restricted to the ASCII line boundaries
newline, carriage return, and carriage-return-newline; a trailing line
terminator does not produce a final empty line. -/
def splitLinesAux (cur : Str) : Str → List Str
  | [] => if cur = [] then [] else [cur.reverse]
  | '\r' :: '\n' :: t => cur.reverse :: splitLinesAux [] t
  | c :: t =>
    if c = '\n' || c = '\r' then cur.reverse :: splitLinesAux [] t
    else splitLinesAux (c :: cur) t

/-- Split a string into its lines (see `splitLinesAux`). -/
def splitLines (s : Str) : List Str := splitLinesAux [] s

/-- Python-dict lookup on an association list (first matching entry). -/
def dictLookup {α : Type} (k : Str) : List (Str × α) → Option α
  | [] => none
  | (k', v) :: t => if k' = k then some v else dictLookup k t

/-- Python-dict assignment `d[k] = v` on an association list: replace the
value in place when the key is present, otherwise append a new entry. -/
def dictSet {α : Type} (k : Str) (v : α) : List (Str × α) → List (Str × α)
  | [] => [(k, v)]
  | (k', v') :: t => if k' = k then (k, v) :: t else (k', v') :: dictSet k v t

/-- A metadata value: a single string or a list of strings
(`Dict[str, Union[str, List[str]]]` in the source). -/
inductive Value : Type where
  | str (s : Str)
  | list (l : List Str)
deriving DecidableEq, Repr

/-- The fields that parse_metadata always stores as lists
(`multi_fields` in the source). -/
def multiFields : List Str :=
  ["Classifier".data, "Requires-Dist".data, "Provides-Extra".data,
   "Project-URL".data, "License-File".data]

/-- Key characters of the header regex `[A-Za-z0-9-]`. -/
def isKeyChar (c : Char) : Bool := c.isAlpha || c.isDigit || c = '-'

/-- Python `re.match` of `([A-Za-z0-9-]+):` then optional whitespace and
the rest of the line, followed by `.strip()` of both groups, on a line
(lines produced by `splitLines` contain no line boundaries, so the
dollar anchor and the dot class are unrestricted).  Returns the key and
the stripped value. -/
def matchKV (line : Str) : Option (Str × Str) :=
  let k := line.takeWhile isKeyChar
  if k = [] then none
  else
    match line.drop k.length with
    | ':' :: rest => some (k, pyStrip rest)
    | _ => none

/-- The test `line.startswith(' ')` (a single space character). -/
def contLine : Str → Bool
  | [] => false
  | c :: _ => c = ' '

/-- Parser state: the accumulated result dictionary and the current key
(`None` before any header line matched). -/
abbrev PState := List (Str × Value) × Option Str

/-- Handling of a header line by the key-value branch of parse_metadata
(the continuation branch did not apply): on a regex match, record the
value and set the current key; otherwise the line is ignored. -/
def procKV (result : List (Str × Value)) (curKey : Option Str) (line : Str) : PState :=
  match matchKV line with
  | some (k, v) =>
    (match dictLookup k result with
     | some (Value.list l) => (dictSet k (Value.list (l ++ [v])) result, some k)
     | some (Value.str s) => (dictSet k (Value.list [s, v]) result, some k)
     | none =>
       (dictSet k (if k ∈ multiFields then Value.list [v] else Value.str v) result,
        some k))
  | none => (result, curKey)

/-- Handling of one header line of parse_metadata.  `none` models a
raised exception: `result[key]` would raise KeyError were the current
key absent, and `result[key][-1]` would raise IndexError were the
stored list empty. -/
def procLine (st : PState) (line : Str) : Option PState :=
  match st with
  | (result, some k) =>
    if contLine line then
      match dictLookup k result with
      | some (Value.list l) =>
        match l.getLast? with
        | some last =>
          some (dictSet k (Value.list (l.dropLast ++ [last ++ ' ' :: pyStrip line])) result,
                some k)
        | none => none
      | some (Value.str s) => some (dictSet k (Value.str (s ++ ' ' :: pyStrip line)) result, some k)
      | none => none
    else some (procKV result (some k) line)
  | (result, none) => some (procKV result none line)

/-- The header loop of parse_metadata over the header lines. -/
def procHeader (lines : List Str) : Option PState :=
  lines.foldlM procLine ([], none)

/-- Separation of the lines into header block and description block at
the first blank (whitespace-only) line, which is itself consumed; every
later line, blank or not, belongs to the description. -/
def splitHD : List Str → List Str × List Str
  | [] => ([], [])
  | l :: ls =>
    if pyStrip l = [] then ([], ls)
    else
      let p := splitHD ls
      (l :: p.1, p.2)

/-- The function parse_metadata of metadata_parser.py: strip the whole
document, split into lines, separate header and description, process the
header lines, and finally store the joined and stripped description
block (when non-empty) under the key Description. -/
def parse_metadata (text : String) : Option (List (Str × Value)) :=
  match procHeader (splitHD (splitLines (pyStrip text.data))).1 with
  | none => none
  | some st =>
    some (if (splitHD (splitLines (pyStrip text.data))).2 = [] then st.1
          else dictSet "Description".data
            (Value.str (pyStrip (List.intercalate ['\n']
              (splitHD (splitLines (pyStrip text.data))).2))) st.1)

/-- A package dependency (the dataclass Dependency of core.py). -/
structure Dependency : Type where
  package : Str
  condition : Option Str
deriving DecidableEq, Repr

/-- Quote characters of the extra regex. -/
def isQuote (c : Char) : Bool := c = '\'' || c = '"'

/-- Case-insensitive comparison of a character against a lowercase
letter (the regex is compiled with re.IGNORECASE). -/
def lowEq (c d : Char) : Bool := c.toLower = d

/-- The quoted capture group at the end of `_EXTRA_RE`: one or more
non-quote characters (captured greedily) followed by a closing quote
(single or double, independently of the opening one).  Returns the
captured name and the input remaining after the closing quote. -/
def quotedName (s : Str) : Option (Str × Str) :=
  match s.takeWhile (fun c => !isQuote c) with
  | [] => none
  | name =>
    match s.drop name.length with
    | q2 :: s6 => if isQuote q2 then some (name, s6) else none
    | [] => none

/-- One attempted match of the tail of `_EXTRA_RE` (the part after the
semicolon): optional whitespace, the case-insensitive literal `extra`,
optional whitespace, two equality signs, optional whitespace, a quote,
and the quoted capture group.  Returns the captured extra name and the
input remaining after the match. -/
def matchExtraAfterSemi (s : Str) : Option (Str × Str) :=
  match s.dropWhile isPySpace with
  | e :: x :: t :: r :: a :: rest =>
    if lowEq e 'e' && lowEq x 'x' && lowEq t 't' && lowEq r 'r' && lowEq a 'a' then
      match rest.dropWhile isPySpace with
      | '=' :: '=' :: s3 =>
        match s3.dropWhile isPySpace with
        | q :: s5 => if isQuote q then quotedName s5 else none
        | [] => none
      | _ => none
    else none
  | _ => none

/-- Fuel-bounded left-to-right scan for non-overlapping matches of the
extra pattern at each semicolon; the first component collects the
captured extra names, the second is the string with each matched span
removed.  Every step consumes at least one character of the string (see
`matchExtraAfterSemi_length`), so any fuel larger than the length of the
string makes the zero-fuel branch unreachable. -/
def scanExtrasF : Nat → Str → List Str × Str
  | 0, s => ([], s)
  | _, [] => ([], [])
  | fuel + 1, c :: t =>
    if c = ';' then
      match matchExtraAfterSemi t with
      | some p => (p.1 :: (scanExtrasF fuel p.2).1, (scanExtrasF fuel p.2).2)
      | none => ((scanExtrasF fuel t).1, c :: (scanExtrasF fuel t).2)
    else ((scanExtrasF fuel t).1, c :: (scanExtrasF fuel t).2)

/-- The combined effect of `_EXTRA_RE.findall` and `_EXTRA_RE.sub("", ·)`
on a requirement string (the scan runs to completion because the fuel
exceeds the length of the string). -/
def scanExtras (s : Str) : List Str × Str := scanExtrasF (s.length + 1) s

/-- Package-name characters of the regex `[A-Za-z0-9_.\-]`. -/
def isPkgChar (c : Char) : Bool :=
  c.isAlpha || c.isDigit || c = '_' || c = '.' || c = '-'

/-- Python `re.match` of a leading package-name token, optional
whitespace and a trailing group of non-newline characters anchored by a
dollar sign: the token is the maximal leading run of package characters
(empty run: no match); the greedy whitespace skip may absorb newlines,
but the trailing group must reach the end of the string or a position
just before a final newline, so a remainder holding an interior newline
makes the whole match fail. -/
def pkgMatch (s : Str) : Option (Str × Str) :=
  let t := s.takeWhile isPkgChar
  if t = [] then none
  else
    let rest := (s.drop t.length).dropWhile isPySpace
    let body := rest.takeWhile (fun c => !(c = '\n'))
    let tail := rest.drop body.length
    if tail = [] || tail = ['\n'] then some (t, body) else none

/-- The read of `Requires-Dist` at the top of extract_dependencies: a
missing field is an empty list and a scalar string is wrapped into a
one-element list. -/
def getRequiresDist (metadata : List (Str × Value)) : List Str :=
  match dictLookup "Requires-Dist".data metadata with
  | none => []
  | some (Value.str s) => [s]
  | some (Value.list l) => l

/-- Python `optional_dependencies.setdefault(extra, []).append(dep)`:
append to the entry of `extra` when present, otherwise create a new
entry at the end holding the one dependency. -/
def addOptional (opt : List (Str × List Dependency)) (extra : Str) (dep : Dependency) :
    List (Str × List Dependency) :=
  match dictLookup extra opt with
  | some l => dictSet extra (l ++ [dep]) opt
  | none => opt ++ [(extra, [dep])]

/-- The Dependency built from a matched package token and the trailing
remainder (`condition = rest.strip() or None` in the source). -/
def mkDep (pkg rest : Str) : Dependency :=
  ⟨pkg, if pyStrip rest = [] then none else some (pyStrip rest)⟩

/-- The body of the requirement loop of extract_dependencies for one
requirement string: strip it, skip it when empty, find and remove the
extra clauses, match the package token, and file the dependency under
required or under every named extra. -/
def procReq (acc : List Dependency × List (Str × List Dependency)) (req0 : Str) :
    List Dependency × List (Str × List Dependency) :=
  if pyStrip req0 = [] then acc
  else
    match pkgMatch (pyStrip (scanExtras (pyStrip req0)).2) with
    | none => acc
    | some (pkg, rest) =>
      if (scanExtras (pyStrip req0)).1 = [] then (acc.1 ++ [mkDep pkg rest], acc.2)
      else
        (acc.1,
         (scanExtras (pyStrip req0)).1.foldl (fun o e => addOptional o e (mkDep pkg rest)) acc.2)

/-- The method PyPIBrowser.extract_dependencies of core.py: classify the
requirement strings of the Requires-Dist field into the required list
and the mapping from extra name to optional dependencies. -/
def extract_dependencies (metadata : List (Str × Value)) :
    List Dependency × List (Str × List Dependency) :=
  (getRequiresDist metadata).foldl procReq ([], [])

/-- Number of Dependency records one requirement string contributes to
the outputs of extract_dependencies: zero when the loop drops it (empty
after stripping, or the package pattern fails on the cleaned form), one
when it carries no extra clause, and otherwise one per extra clause. -/
def reqCount (req0 : Str) : Nat :=
  if pyStrip req0 = [] then 0
  else
    match pkgMatch (pyStrip (scanExtras (pyStrip req0)).2) with
    | none => 0
    | some _ =>
      if (scanExtras (pyStrip req0)).1 = [] then 1 else (scanExtras (pyStrip req0)).1.length

/-- Whether the requirement loop drops a requirement string without
producing any Dependency. -/
def reqDropped (req0 : Str) : Bool :=
  (pyStrip req0).isEmpty || (pkgMatch (pyStrip (scanExtras (pyStrip req0)).2)).isNone

/-- Sum of the lengths of the per-extra dependency lists. -/
def optSum (opt : List (Str × List Dependency)) : Nat :=
  (opt.map (fun e => e.2.length)).sum

/-- Total number of Dependency records over the required list and every
extra's list. -/
def totalDeps (r : List Dependency × List (Str × List Dependency)) : Nat :=
  r.1.length + optSum r.2

/-- The value a header line records for the given key: the matched value
when the line is a key-value line for that key, nothing otherwise. -/
def lineKV (k : Str) (line : Str) : Option Str :=
  match matchKV line with
  | some (k', v) => if k' = k then some v else none
  | none => none

/-- The values of all occurrences of a key among the header lines, in
order of appearance. -/
def headerKeyValues (k : Str) (lines : List Str) : List Str :=
  lines.filterMap (lineKV k)

/-- Dictionaries whose list values are all non-empty. -/
def listsNonempty (d : List (Str × Value)) : Prop :=
  ∀ k l, dictLookup k d = some (Value.list l) → l ≠ []

/-- Invariant of the header loop: the current key, when set, is present
in the result dictionary (so the access result key cannot raise
KeyError), and every stored list is non-empty (so the index minus one
cannot raise IndexError). -/
def goodState (st : PState) : Prop :=
  (∀ k, st.2 = some k → (dictLookup k st.1).isSome = true) ∧ listsNonempty st.1

/-- Invariant of the optional-dependency mapping: every entry maps a
non-empty extra name to a non-empty dependency list. -/
def optGood (opt : List (Str × List Dependency)) : Prop :=
  ∀ e deps, dictLookup e opt = some deps → e ≠ [] ∧ deps ≠ []

/-- Shape of the stored value of a key after some header lines have been
processed, as a function of the values vs of the occurrences of the key
seen so far: no entry when none was seen; a one-element list (for a
declared multi-valued key) or a scalar (otherwise) whose stored text
extends the single seen value (continuation lines only append); and a
list extending the seen values pointwise once at least two were seen. -/
def keyShape (k : Str) (vs : List Str) (result : List (Str × Value)) : Prop :=
  match vs with
  | [] => dictLookup k result = none
  | [v] =>
    if k ∈ multiFields then
      ∃ w, dictLookup k result = some (Value.list [w]) ∧ v <+: w
    else
      ∃ w, dictLookup k result = some (Value.str w) ∧ v <+: w
  | _ => ∃ ws, dictLookup k result = some (Value.list ws) ∧ List.Forall₂ (· <+: ·) vs ws

theorem length_dropWhile_le (p : Char → Bool) (l : Str) :
    (l.dropWhile p).length ≤ l.length := by
  induction l with
  | nil => simp [List.dropWhile]
  | cons c t ih =>
    by_cases h : p c
    · simp only [List.dropWhile, h]
      exact Nat.le_succ_of_le ih
    · simp [List.dropWhile, h]

theorem length_takeWhile_le (p : Char → Bool) (l : Str) :
    (l.takeWhile p).length ≤ l.length := by
  induction l with
  | nil => simp [List.takeWhile]
  | cons c t ih =>
    by_cases h : p c
    · simpa [List.takeWhile, h] using ih
    · simp [List.takeWhile, h]

theorem quotedName_length {s name rest : Str}
    (h : quotedName s = some (name, rest)) : rest.length < s.length := by
  unfold quotedName at h
  split at h
  · exact absurd h (by simp)
  next nm hnm =>
    split at h
    next q2 s6 heq =>
      split at h
      · simp only [Option.some.injEq, Prod.mk.injEq] at h
        obtain ⟨-, h2⟩ := h
        subst rest
        have h3 : (s.drop (s.takeWhile (fun c => !isQuote c)).length).length
            = s6.length + 1 := by rw [heq]; simp
        have h4 : (s.drop (s.takeWhile (fun c => !isQuote c)).length).length
            = s.length - (s.takeWhile (fun c => !isQuote c)).length := by simp
        have h5 : (s.takeWhile (fun c => !isQuote c)).length ≤ s.length :=
          length_takeWhile_le _ s
        omega
      · exact absurd h (by simp)
    next => exact absurd h (by simp)

theorem matchExtraAfterSemi_length {s name rest : Str}
    (h : matchExtraAfterSemi s = some (name, rest)) : rest.length < s.length := by
  unfold matchExtraAfterSemi at h
  split at h
  next e x t r a rest1 heq =>
    have h1 : rest1.length + 5 ≤ s.length := by
      have h0 := length_dropWhile_le isPySpace s
      rw [heq] at h0
      simp only [List.length_cons] at h0
      omega
    split at h
    · split at h
      next s3 heq2 =>
        have h2 : s3.length + 2 ≤ rest1.length := by
          have h0 := length_dropWhile_le isPySpace rest1
          rw [heq2] at h0
          simp only [List.length_cons] at h0
          omega
        split at h
        next q s5 heq3 =>
          have h3 : s5.length + 1 ≤ s3.length := by
            have h0 := length_dropWhile_le isPySpace s3
            rw [heq3] at h0
            simp only [List.length_cons] at h0
            omega
          split at h
          · have h4 := quotedName_length h
            omega
          · exact absurd h (by simp)
        next => exact absurd h (by simp)
      next => exact absurd h (by simp)
    · exact absurd h (by simp)
  next => exact absurd h (by simp)

theorem stripEnd_cons_shape (c : Char) (t : Str) :
    stripEnd (c :: t) = [] ∨ ∃ t', stripEnd (c :: t) = c :: t' := by
  cases h : stripEnd t with
  | nil =>
    by_cases hc : isPySpace c
    · left
      simp [stripEnd, h, hc]
    · right
      exact ⟨[], by simp [stripEnd, h, hc]⟩
  | cons a l => exact Or.inr ⟨a :: l, by simp [stripEnd, h]⟩

theorem stripEnd_cons_of_cons {t : Str} {a : Char} {l : Str}
    (h : stripEnd t = a :: l) (c : Char) : stripEnd (c :: t) = c :: a :: l := by
  simp [stripEnd, h]

theorem stripEnd_idem (l : Str) : stripEnd (stripEnd l) = stripEnd l := by
  induction l with
  | nil => rfl
  | cons c t ih =>
    cases h : stripEnd t with
    | nil =>
      by_cases hc : isPySpace c
      · simp [stripEnd, h, hc]
      · simp [stripEnd, h, hc]
    | cons a l' =>
      have ih' := ih
      rw [h] at ih'
      rw [stripEnd_cons_of_cons h c, stripEnd_cons_of_cons ih' c]

theorem dropWhile_head_false {p : Char → Bool} {l : Str} {c : Char} {t : Str}
    (h : l.dropWhile p = c :: t) : p c = false := by
  induction l with
  | nil => simp [List.dropWhile] at h
  | cons a l' ih =>
    by_cases ha : p a
    · rw [List.dropWhile_cons, if_pos ha] at h
      exact ih h
    · rw [List.dropWhile_cons, if_neg ha] at h
      obtain ⟨rfl, -⟩ := List.cons.injEq .. ▸ h
      · simpa using ha

theorem dropWhile_cons_of_neg {p : Char → Bool} {c : Char} (t : Str) (h : p c = false) :
    (c :: t).dropWhile p = c :: t := by
  rw [List.dropWhile_cons, if_neg (by simp [h])]

theorem pyStrip_idem (s : Str) : pyStrip (pyStrip s) = pyStrip s := by
  unfold pyStrip
  have hmid : (stripEnd (s.dropWhile isPySpace)).dropWhile isPySpace
      = stripEnd (s.dropWhile isPySpace) := by
    cases h : s.dropWhile isPySpace with
    | nil => simp [stripEnd]
    | cons c t =>
      have hc : isPySpace c = false := dropWhile_head_false h
      rcases stripEnd_cons_shape c t with h2 | ⟨t', h2⟩
      · simp [h2]
      · rw [h2]
        exact dropWhile_cons_of_neg t' hc
  rw [hmid, stripEnd_idem]

theorem dictLookup_dictSet_self {α : Type} (k : Str) (v : α) (d : List (Str × α)) :
    dictLookup k (dictSet k v d) = some v := by
  induction d with
  | nil => simp [dictSet, dictLookup]
  | cons e t ih =>
    obtain ⟨k', v'⟩ := e
    by_cases h : k' = k
    · simp [dictSet, h, dictLookup]
    · simp [dictSet, h, dictLookup, ih]

theorem dictLookup_dictSet_ne {α : Type} {k0 k : Str} (h : k0 ≠ k) (v : α)
    (d : List (Str × α)) : dictLookup k (dictSet k0 v d) = dictLookup k d := by
  induction d with
  | nil => simp [dictSet, dictLookup, h]
  | cons e t ih =>
    obtain ⟨k', v'⟩ := e
    by_cases h' : k' = k0
    · subst h'
      simp [dictSet, dictLookup, h]
    · by_cases h'' : k' = k
      · subst h''
        simp [dictSet, dictLookup, h']
      · simp [dictSet, h', dictLookup, h'', ih]

theorem dictLookup_append_some {α : Type} {k : Str} {d : List (Str × α)} {v : α}
    (h : dictLookup k d = some v) (e : List (Str × α)) :
    dictLookup k (d ++ e) = some v := by
  induction d with
  | nil => simp [dictLookup] at h
  | cons x t ih =>
    obtain ⟨k', v'⟩ := x
    by_cases h' : k' = k
    · simp only [dictLookup, if_pos h'] at h ⊢
      simpa using h
    · simp only [dictLookup, if_neg h'] at h ⊢
      exact ih h

theorem dictLookup_append_none {α : Type} {k : Str} {d : List (Str × α)}
    (h : dictLookup k d = none) (e : List (Str × α)) :
    dictLookup k (d ++ e) = dictLookup k e := by
  induction d with
  | nil => simp
  | cons x t ih =>
    obtain ⟨k', v'⟩ := x
    by_cases h' : k' = k
    · simp [dictLookup, if_pos h'] at h
    · rw [List.cons_append]
      simp only [dictLookup, if_neg h'] at h ⊢
      exact ih h

theorem matchKV_of_contLine {line : Str} (h : contLine line = true) :
    matchKV line = none := by
  cases line with
  | nil => simp [contLine] at h
  | cons c t =>
    have hc : c = ' ' := by simpa [contLine] using h
    subst hc
    have hk : isKeyChar ' ' = false := by decide
    simp [matchKV, List.takeWhile_cons, hk]

/-- Claim C9: for every input string, parsing is insensitive to the
leading and trailing whitespace of the whole document: the parse of a
text equals the parse of the text with leading and trailing whitespace
removed (the source strips the document before splitting it into lines,
and stripping is idempotent). -/
theorem parse_strip_invariant (text : String) :
    parse_metadata text = parse_metadata (String.mk (pyStrip text.data)) := by
  unfold parse_metadata
  rw [show (String.mk (pyStrip text.data)).data = pyStrip text.data from rfl, pyStrip_idem]

/-- Claim C2, counterexample: an input whose very first line begins with
leading whitespace is not dropped: the global strip removes that
whitespace and the line is parsed as a header line, so the document
consisting of the single line with two leading spaces and then Name
colon foo produces the mapping entry Name, not the empty mapping the
claim requires. -/
theorem first_line_leading_ws_cx :
    parse_metadata "  Name: foo" = some [("Name".data, Value.str "foo".data)] ∧
    some [("Name".data, Value.str "foo".data)] ≠ (some [] : Option (List (Str × Value))) :=
  ⟨rfl, by decide⟩

/-- Claim C2 as amended: the parser strips the whole document of
leading and trailing whitespace before splitting it into lines
(interior per-line content is preserved), so an input whose very first
line begins with leading whitespace has that whitespace removed and the
line is treated as an ordinary header line; a continuation line
processed while no current key is active is dropped without changing
the state. -/
theorem stripped_first_line_behavior :
    (∀ (result : List (Str × Value)) (line : Str), contLine line = true →
      procLine (result, none) line = some (result, none)) ∧
    parse_metadata "  Name: foo" = some [("Name".data, Value.str "foo".data)] := by
  refine ⟨fun result line h => ?_, rfl⟩
  simp [procLine, procKV, matchKV_of_contLine h]

theorem stripped_first_line_behavior_w :
    procLine ([], none) "   x".data = some ([], none) ∧
    parse_metadata "  Name: foo" = some [("Name".data, Value.str "foo".data)] :=
  ⟨stripped_first_line_behavior.1 [] "   x".data (by decide),
   stripped_first_line_behavior.2⟩

/-- Claim C5, counterexample: a line beginning with a tab is a line
beginning with leading whitespace while a current key is active, yet
its text is not appended to the stored value: only lines beginning with
a space character are continuation lines, so parsing Name colon a
followed by a tab-led line b leaves Name equal to a rather than a b. -/
theorem tab_continuation_cx :
    parse_metadata "Name: a\n\tb" = some [("Name".data, Value.str "a".data)] ∧
    some [("Name".data, Value.str "a".data)]
      ≠ some [("Name".data, Value.str "a b".data)] :=
  ⟨rfl, by decide⟩

theorem procLine_cont_str {result : List (Str × Value)} {k line s : Str}
    (hc : contLine line = true) (hl : dictLookup k result = some (Value.str s)) :
    procLine (result, some k) line
      = some (dictSet k (Value.str (s ++ ' ' :: pyStrip line)) result, some k) := by
  simp [procLine, hc, hl]

theorem procLine_cont_list {result : List (Str × Value)} {k line : Str} {l : List Str}
    {x : Str} (hc : contLine line = true)
    (hl : dictLookup k result = some (Value.list (l ++ [x]))) :
    procLine (result, some k) line
      = some (dictSet k (Value.list (l ++ [x ++ ' ' :: pyStrip line])) result, some k) := by
  simp [procLine, hc, hl, List.getLast?_concat, List.dropLast_concat]

theorem procLine_not_cont {result : List (Str × Value)} {line : Str}
    (curKey : Option Str) (hc : contLine line = false) :
    procLine (result, curKey) line = some (procKV result curKey line) := by
  cases curKey with
  | none => rfl
  | some k => simp [procLine, hc]

theorem procKV_no_match {result : List (Str × Value)} {line : Str} (curKey : Option Str)
    (hm : matchKV line = none) : procKV result curKey line = (result, curKey) := by
  simp [procKV, hm]

theorem procKV_new {result : List (Str × Value)} {line k v : Str} (curKey : Option Str)
    (hm : matchKV line = some (k, v)) (hl : dictLookup k result = none) :
    procKV result curKey line
      = (dictSet k (if k ∈ multiFields then Value.list [v] else Value.str v) result,
         some k) := by
  simp [procKV, hm, hl]

theorem procKV_str {result : List (Str × Value)} {line k v s : Str} (curKey : Option Str)
    (hm : matchKV line = some (k, v)) (hl : dictLookup k result = some (Value.str s)) :
    procKV result curKey line = (dictSet k (Value.list [s, v]) result, some k) := by
  simp [procKV, hm, hl]

theorem procKV_list {result : List (Str × Value)} {line k v : Str} {l : List Str}
    (curKey : Option Str) (hm : matchKV line = some (k, v))
    (hl : dictLookup k result = some (Value.list l)) :
    procKV result curKey line = (dictSet k (Value.list (l ++ [v])) result, some k) := by
  simp [procKV, hm, hl]

/-- Claim C5 as amended: in the header, every line beginning with a
space character (not arbitrary whitespace) while a current key is
active has its trimmed text appended, separated by a single space, to
the last stored value of the current key: to the scalar when the stored
value is a scalar, and to the last element when it is a sequence; in
particular the documented multi-line Description example parses to the
single glued sentence. -/
theorem space_continuation_append :
    (∀ (result : List (Str × Value)) (k line s : Str), contLine line = true →
      dictLookup k result = some (Value.str s) →
      procLine (result, some k) line
        = some (dictSet k (Value.str (s ++ ' ' :: pyStrip line)) result, some k)) ∧
    (∀ (result : List (Str × Value)) (k line : Str) (l : List Str) (x : Str),
      contLine line = true →
      dictLookup k result = some (Value.list (l ++ [x])) →
      procLine (result, some k) line
        = some (dictSet k (Value.list (l ++ [x ++ ' ' :: pyStrip line])) result, some k)) ∧
    parse_metadata "Name: test-package\nDescription: This is a long description\n    that continues on the next line\n    and another line.\nVersion: 1.0.0\n"
      = some [("Name".data, Value.str "test-package".data),
              ("Description".data,
               Value.str "This is a long description that continues on the next line and another line.".data),
              ("Version".data, Value.str "1.0.0".data)] :=
  ⟨fun _ _ _ _ hc hl => procLine_cont_str hc hl,
   fun _ _ _ _ _ hc hl => procLine_cont_list hc hl, rfl⟩

theorem space_continuation_append_w :
    procLine ([("K".data, Value.str "v".data)], some "K".data) "  w".data
      = some ([("K".data, Value.str "v w".data)], some "K".data) := by
  have h := space_continuation_append.1 [("K".data, Value.str "v".data)]
    "K".data "  w".data "v".data (by decide) rfl
  rw [h]
  rfl

theorem listsNonempty_dictSet {d : List (Str × Value)} (hd : listsNonempty d)
    {k0 : Str} {v0 : Value} (hv : ∀ l, v0 = Value.list l → l ≠ []) :
    listsNonempty (dictSet k0 v0 d) := by
  intro k l h
  by_cases hk : k0 = k
  · subst hk
    rw [dictLookup_dictSet_self] at h
    exact hv l (by simpa using h)
  · rw [dictLookup_dictSet_ne hk] at h
    exact hd k l h

theorem goodState_dictSet {result : List (Str × Value)} (hres : listsNonempty result)
    (k : Str) {v : Value} (hv : ∀ l, v = Value.list l → l ≠ []) :
    goodState (dictSet k v result, some k) := by
  refine ⟨fun k' hk' => ?_, listsNonempty_dictSet hres hv⟩
  obtain rfl : k = k' := by simpa using hk'
  rw [dictLookup_dictSet_self]
  rfl

theorem procKV_good {result : List (Str × Value)} {curKey : Option Str} {line : Str}
    (h : goodState (result, curKey)) : goodState (procKV result curKey line) := by
  cases hm : matchKV line with
  | none =>
    rw [procKV_no_match curKey hm]
    exact h
  | some kv =>
    obtain ⟨k, v⟩ := kv
    cases hl : dictLookup k result with
    | none =>
      rw [procKV_new curKey hm hl]
      refine goodState_dictSet h.2 k fun l hl' => ?_
      by_cases hmem : k ∈ multiFields
      · rw [if_pos hmem] at hl'
        obtain rfl : [v] = l := by simpa using hl'
        simp
      · rw [if_neg hmem] at hl'
        cases hl'
    | some val =>
      cases val with
      | str s =>
        rw [procKV_str curKey hm hl]
        refine goodState_dictSet h.2 k fun l hl' => ?_
        obtain rfl : [s, v] = l := by simpa using hl'
        simp
      | list l0 =>
        rw [procKV_list curKey hm hl]
        refine goodState_dictSet h.2 k fun l hl' => ?_
        obtain rfl : l0 ++ [v] = l := by simpa using hl'
        simp

theorem procLine_good {st : PState} (line : Str) (h : goodState st) :
    ∃ st', procLine st line = some st' ∧ goodState st' := by
  obtain ⟨result, curKey⟩ := st
  cases hc : contLine line with
  | false => exact ⟨_, procLine_not_cont curKey hc, procKV_good h⟩
  | true =>
    cases curKey with
    | none => exact ⟨_, rfl, procKV_good h⟩
    | some k =>
      have hsome := h.1 k rfl
      cases hl : dictLookup k result with
      | none =>
        rw [show ((result, some k) : PState).1 = result from rfl, hl] at hsome
        simp at hsome
      | some val =>
        cases val with
        | str s =>
          exact ⟨_, procLine_cont_str hc hl,
            goodState_dictSet h.2 k fun l hl' => by cases hl'⟩
        | list l0 =>
          have hne : l0 ≠ [] := h.2 k l0 hl
          obtain ⟨l0', x, rfl⟩ : ∃ l0' x, l0 = l0' ++ [x] := by
            rcases List.eq_nil_or_concat l0 with h0 | ⟨l0', x, h0⟩
            · exact absurd h0 hne
            · exact ⟨l0', x, by simpa [List.concat_eq_append] using h0⟩
          refine ⟨_, procLine_cont_list hc hl, goodState_dictSet h.2 k fun l hl' => ?_⟩
          obtain rfl : l0' ++ [x ++ ' ' :: pyStrip line] = l := by simpa using hl'
          simp

theorem foldlM_procLine_good (lines : List Str) {st : PState} (h : goodState st) :
    ∃ st', List.foldlM procLine st lines = some st' ∧ goodState st' := by
  induction lines generalizing st with
  | nil => exact ⟨st, rfl, h⟩
  | cons l ls ih =>
    obtain ⟨st1, h1, hg1⟩ := procLine_good l h
    obtain ⟨st', h', hg'⟩ := ih hg1
    exact ⟨st', by rw [List.foldlM_cons, h1]; exact h', hg'⟩

theorem goodState_init : goodState (([] : List (Str × Value)), (none : Option Str)) := by
  constructor
  · intro k hk
    cases hk
  · intro k l h
    exact absurd h (by simp [dictLookup])

theorem procHeader_good (lines : List Str) :
    ∃ st, procHeader lines = some st ∧ goodState st :=
  foldlM_procLine_good lines goodState_init

theorem parse_metadata_good (text : String) :
    ∃ m, parse_metadata text = some m ∧ listsNonempty m := by
  obtain ⟨st, hf, hg⟩ := procHeader_good (splitHD (splitLines (pyStrip text.data))).1
  unfold parse_metadata
  rw [hf]
  refine ⟨_, rfl, ?_⟩
  by_cases hd2 : (splitHD (splitLines (pyStrip text.data))).2 = []
  · rw [if_pos hd2]
    exact hg.2
  · rw [if_neg hd2]
    exact listsNonempty_dictSet hg.2 fun l hl => by cases hl

/-- Claim C1: for every input string, parse_metadata returns a mapping
without raising (the modelled KeyError and IndexError branches are
unreachable), and for every metadata dictionary whose values are
strings or lists of strings, extract_dependencies returns its pair of
outputs (it is a total function of the embedding); no error escapes
either component. -/
theorem parse_extract_never_fail :
    (∀ text : String, ∃ m, parse_metadata text = some m) ∧
    (∀ md : List (Str × Value), ∃ p, extract_dependencies md = p) :=
  ⟨fun text => (parse_metadata_good text).elim fun m hm => ⟨m, hm.1⟩,
   fun md => ⟨extract_dependencies md, rfl⟩⟩

theorem quotedName_name_nonempty {s n r : Str} (h : quotedName s = some (n, r)) :
    n ≠ [] := by
  unfold quotedName at h
  split at h
  · exact absurd h (by simp)
  next hnm =>
    split at h
    next q2 s6 heq =>
      split at h
      · simp only [Option.some.injEq, Prod.mk.injEq] at h
        obtain ⟨h1, -⟩ := h
        intro hn
        exact hnm (by rw [h1, hn])
      · exact absurd h (by simp)
    next => exact absurd h (by simp)

theorem matchExtraAfterSemi_name_nonempty {s n r : Str}
    (h : matchExtraAfterSemi s = some (n, r)) : n ≠ [] := by
  unfold matchExtraAfterSemi at h
  split at h
  next =>
    split at h
    · split at h
      next =>
        split at h
        next =>
          split at h
          · exact quotedName_name_nonempty h
          · exact absurd h (by simp)
        next => exact absurd h (by simp)
      next => exact absurd h (by simp)
    · exact absurd h (by simp)
  next => exact absurd h (by simp)

theorem scanExtrasF_names_nonempty (fuel : Nat) :
    ∀ (s : Str), ∀ n ∈ (scanExtrasF fuel s).1, n ≠ [] := by
  induction fuel with
  | zero =>
    intro s n hn
    simp [scanExtrasF] at hn
  | succ f ih =>
    intro s n hn
    cases s with
    | nil => simp [scanExtrasF] at hn
    | cons c t =>
      by_cases hc : c = ';'
      · subst hc
        cases hm : matchExtraAfterSemi t with
        | some p =>
          obtain ⟨p1, p2⟩ := p
          rw [show scanExtrasF (f + 1) (';' :: t)
              = (p1 :: (scanExtrasF f p2).1, (scanExtrasF f p2).2) by
            simp [scanExtrasF, hm]] at hn
          rw [List.mem_cons] at hn
          rcases hn with hn | hn
          · exact hn ▸ matchExtraAfterSemi_name_nonempty hm
          · exact ih p2 n hn
        | none =>
          rw [show scanExtrasF (f + 1) (';' :: t)
              = ((scanExtrasF f t).1, ';' :: (scanExtrasF f t).2) by
            simp [scanExtrasF, hm]] at hn
          exact ih t n hn
      · rw [show scanExtrasF (f + 1) (c :: t)
            = ((scanExtrasF f t).1, c :: (scanExtrasF f t).2) by
          simp [scanExtrasF, hc]] at hn
        exact ih t n hn

theorem scanExtras_names_nonempty (s : Str) : ∀ n ∈ (scanExtras s).1, n ≠ [] :=
  scanExtrasF_names_nonempty (s.length + 1) s

theorem addOptional_good {opt : List (Str × List Dependency)} {e : Str} {dep : Dependency}
    (h : optGood opt) (he : e ≠ []) : optGood (addOptional opt e dep) := by
  unfold addOptional
  cases hl : dictLookup e opt with
  | some l =>
    intro e' deps' h'
    by_cases hk : e = e'
    · subst hk
      rw [dictLookup_dictSet_self] at h'
      obtain rfl : l ++ [dep] = deps' := by simpa using h'
      exact ⟨he, by simp⟩
    · rw [dictLookup_dictSet_ne hk] at h'
      exact h e' deps' h'
  | none =>
    intro e' deps' h'
    cases hdl : dictLookup e' opt with
    | some v =>
      rw [dictLookup_append_some hdl] at h'
      obtain rfl : v = deps' := by simpa using h'
      exact h e' v hdl
    | none =>
      rw [dictLookup_append_none hdl] at h'
      by_cases he' : e = e'
      · subst he'
        rw [show dictLookup e [(e, [dep])] = some [dep] by simp [dictLookup]] at h'
        obtain rfl : [dep] = deps' := by simpa using h'
        exact ⟨he, by simp⟩
      · rw [show dictLookup e' [(e, [dep])] = none by simp [dictLookup, he']] at h'
        cases h'

theorem foldl_addOptional_good {dep : Dependency} :
    ∀ (extras : List Str) (opt : List (Str × List Dependency)),
      (∀ e ∈ extras, e ≠ []) → optGood opt →
      optGood (extras.foldl (fun o e => addOptional o e dep) opt) := by
  intro extras
  induction extras with
  | nil =>
    intro opt _ h
    exact h
  | cons e es ih =>
    intro opt hne h
    rw [List.foldl_cons]
    exact ih _ (fun e' he' => hne e' (List.mem_cons_of_mem e he'))
      (addOptional_good h (hne e (List.mem_cons_self e es)))

theorem procReq_optGood {acc : List Dependency × List (Str × List Dependency)} {r : Str}
    (h : optGood acc.2) : optGood (procReq acc r).2 := by
  unfold procReq
  split
  · exact h
  · split
    · exact h
    next pkg rest =>
      split
      · exact h
      · exact foldl_addOptional_good _ _ (fun e he => scanExtras_names_nonempty _ e he) h

theorem foldl_procReq_optGood :
    ∀ (reqs : List Str) (acc : List Dependency × List (Str × List Dependency)),
      optGood acc.2 → optGood ((reqs.foldl procReq acc).2) := by
  intro reqs
  induction reqs with
  | nil =>
    intro acc h
    exact h
  | cons r rs ih =>
    intro acc h
    rw [List.foldl_cons]
    exact ih _ (procReq_optGood h)

theorem extract_optGood (md : List (Str × Value)) :
    optGood (extract_dependencies md).2 := by
  unfold extract_dependencies
  refine foldl_procReq_optGood _ _ ?_
  intro e deps h
  exact absurd h (by simp [dictLookup])

/-- Claim C10: empty sequences never appear: every list value of a
mapping returned by parse_metadata is non-empty, and every entry of the
optional mapping returned by extract_dependencies maps a non-empty
extra name to a non-empty dependency list. -/
theorem no_empty_sequences :
    (∀ (text : String) (m : List (Str × Value)), parse_metadata text = some m →
      ∀ k l, dictLookup k m = some (Value.list l) → l ≠ []) ∧
    (∀ (md : List (Str × Value)) (e : Str) (deps : List Dependency),
      dictLookup e (extract_dependencies md).2 = some deps → e ≠ [] ∧ deps ≠ []) := by
  constructor
  · intro text m hm
    obtain ⟨m', hm', hgood⟩ := parse_metadata_good text
    rw [hm] at hm'
    obtain rfl : m = m' := by simpa using hm'
    exact hgood
  · intro md e deps h
    exact extract_optGood md e deps h

theorem no_empty_sequences_w :
    (["x".data] ≠ ([] : List Str)) ∧
    ("test".data ≠ ([] : Str) ∧
      [Dependency.mk "pytest".data none, Dependency.mk "coverage".data none] ≠ []) :=
  ⟨no_empty_sequences.1 "Classifier: x" [("Classifier".data, Value.list ["x".data])] rfl
      "Classifier".data ["x".data] rfl,
   no_empty_sequences.2
      [("Requires-Dist".data,
        Value.list ["requests".data, "pytest; extra == 'test'".data,
          "coverage; extra == 'test'".data])]
      "test".data [Dependency.mk "pytest".data none, Dependency.mk "coverage".data none] rfl⟩

theorem parse_metadata_eq {text : String} {st : PState}
    (hf : procHeader (splitHD (splitLines (pyStrip text.data))).1 = some st) :
    parse_metadata text
      = some (if (splitHD (splitLines (pyStrip text.data))).2 = [] then st.1
          else dictSet "Description".data
            (Value.str (pyStrip (List.intercalate ['\n']
              (splitHD (splitLines (pyStrip text.data))).2))) st.1) := by
  unfold parse_metadata
  rw [hf]

theorem splitHD_eq (lines : List Str) :
    splitHD lines
      = (lines.takeWhile (fun l => !(pyStrip l).isEmpty),
         (lines.dropWhile (fun l => !(pyStrip l).isEmpty)).drop 1) := by
  induction lines with
  | nil => rfl
  | cons l ls ih =>
    by_cases h : pyStrip l = []
    · simp [splitHD, h, List.takeWhile_cons, List.dropWhile_cons]
    · have h' : (pyStrip l).isEmpty = false := by
        simpa using h
      simp [splitHD, h, h', List.takeWhile_cons, List.dropWhile_cons, ih]

/-- Claim C7, counterexample: a document with the single header line
Description colon and no description block yields a mapping in which
the key Description is present, and present as the empty string, so
absence of the description block does not make the Description key
omitted, contrary to the claim. -/
theorem header_description_cx :
    parse_metadata "Description:" = some [("Description".data, Value.str [])] ∧
    dictLookup "Description".data [("Description".data, Value.str ([] : Str))]
      = some (Value.str []) :=
  ⟨rfl, rfl⟩

/-- Claim C7 as amended: the parser partitions the lines at the first
blank (whitespace-only) line (the header is the longest prefix of
non-blank lines, the description is everything after the first blank
line); when the description block is non-empty its lines are joined
with newlines, the result is stripped and stored under Description,
overwriting any header-derived value; when the block is empty or
absent the description step adds nothing and the result is exactly the
header mapping (in which a header line may still have set Description,
even to an empty string); and an empty or whitespace-only input yields
the empty mapping. -/
theorem description_block_handling :
    (∀ lines : List Str, splitHD lines
        = (lines.takeWhile (fun l => !(pyStrip l).isEmpty),
           (lines.dropWhile (fun l => !(pyStrip l).isEmpty)).drop 1)) ∧
    (∀ text : String, (splitHD (splitLines (pyStrip text.data))).2 ≠ [] →
      ∃ m, parse_metadata text = some m ∧
        dictLookup "Description".data m
          = some (Value.str (pyStrip (List.intercalate ['\n']
              (splitHD (splitLines (pyStrip text.data))).2)))) ∧
    (∀ text : String, (splitHD (splitLines (pyStrip text.data))).2 = [] →
      ∃ st, procHeader (splitHD (splitLines (pyStrip text.data))).1 = some st ∧
        parse_metadata text = some st.1) ∧
    (∀ text : String, pyStrip text.data = [] → parse_metadata text = some []) := by
  refine ⟨splitHD_eq, fun text hne => ?_, fun text hd2 => ?_, fun text h => ?_⟩
  · obtain ⟨st, hf, -⟩ := procHeader_good (splitHD (splitLines (pyStrip text.data))).1
    refine ⟨dictSet "Description".data
      (Value.str (pyStrip (List.intercalate ['\n']
        (splitHD (splitLines (pyStrip text.data))).2))) st.1, ?_, ?_⟩
    · rw [parse_metadata_eq hf, if_neg hne]
    · rw [dictLookup_dictSet_self]
  · obtain ⟨st, hf, -⟩ := procHeader_good (splitHD (splitLines (pyStrip text.data))).1
    exact ⟨st, hf, by rw [parse_metadata_eq hf, if_pos hd2]⟩
  · have h1 : splitLines (pyStrip text.data) = [] := by rw [h]; rfl
    have hf : procHeader (splitHD (splitLines (pyStrip text.data))).1
        = some ([], none) := by rw [h1]; rfl
    have hd2 : (splitHD (splitLines (pyStrip text.data))).2 = [] := by rw [h1]; rfl
    rw [parse_metadata_eq hf, if_pos hd2]

theorem description_block_handling_w :
    (∃ m, parse_metadata "A: b\n\nD" = some m ∧
      dictLookup "Description".data m
        = some (Value.str (pyStrip (List.intercalate ['\n']
            (splitHD (splitLines (pyStrip "A: b\n\nD".data))).2)))) ∧
    (∃ st, procHeader (splitHD (splitLines (pyStrip "A: b".data))).1 = some st ∧
      parse_metadata "A: b" = some st.1) ∧
    parse_metadata "   " = some [] :=
  ⟨description_block_handling.2.1 "A: b\n\nD" (by decide),
   description_block_handling.2.2.1 "A: b" (by decide),
   description_block_handling.2.2.2 "   " (by decide)⟩

theorem getRequiresDist_list {md : List (Str × Value)} {l : List Str}
    (h : dictLookup "Requires-Dist".data md = some (Value.list l)) :
    getRequiresDist md = l := by
  unfold getRequiresDist
  rw [h]

/-- Claim C3: for every metadata mapping whose Requires-Dist field is
the three-element sequence requests, pytest gated on the extra test,
and coverage gated on the extra test, extraction returns the required
sequence holding only requests with no condition, and the optional
mapping sending test to pytest and coverage, both with no condition. -/
theorem required_vs_optional_example (md : List (Str × Value))
    (h : dictLookup "Requires-Dist".data md
      = some (Value.list ["requests".data, "pytest; extra == 'test'".data,
          "coverage; extra == 'test'".data])) :
    extract_dependencies md
      = ([Dependency.mk "requests".data none],
         [("test".data,
           [Dependency.mk "pytest".data none, Dependency.mk "coverage".data none])]) := by
  unfold extract_dependencies
  rw [getRequiresDist_list h]
  rfl

theorem required_vs_optional_example_w :
    extract_dependencies
      [("Requires-Dist".data,
        Value.list ["requests".data, "pytest; extra == 'test'".data,
          "coverage; extra == 'test'".data])]
      = ([Dependency.mk "requests".data none],
         [("test".data,
           [Dependency.mk "pytest".data none, Dependency.mk "coverage".data none])]) :=
  required_vs_optional_example _ rfl

/-- Claim C8: for a requirement string with no extra clause, the
condition text after the package-name token is preserved verbatim:
extracting from a Requires-Dist holding the requirement coverage at
least five with a python-version marker produces the dependency with
package coverage and the full marker text as its condition, in the
required sequence. -/
theorem condition_preserved_example (md : List (Str × Value))
    (h : dictLookup "Requires-Dist".data md
      = some (Value.list ["coverage>=5.0; python_version >= '3.8'".data])) :
    extract_dependencies md
      = ([Dependency.mk "coverage".data (some ">=5.0; python_version >= '3.8'".data)],
         []) := by
  unfold extract_dependencies
  rw [getRequiresDist_list h]
  rfl

theorem condition_preserved_example_w :
    extract_dependencies
      [("Requires-Dist".data, Value.list ["coverage>=5.0; python_version >= '3.8'".data])]
      = ([Dependency.mk "coverage".data (some ">=5.0; python_version >= '3.8'".data)],
         []) :=
  condition_preserved_example _ rfl

theorem optSum_append (a b : List (Str × List Dependency)) :
    optSum (a ++ b) = optSum a + optSum b := by
  simp [optSum]

theorem optSum_dictSet_found {opt : List (Str × List Dependency)} {e : Str}
    {l : List Dependency} (h : dictLookup e opt = some l) (dep : Dependency) :
    optSum (dictSet e (l ++ [dep]) opt) = optSum opt + 1 := by
  induction opt with
  | nil => simp [dictLookup] at h
  | cons x t ih =>
    obtain ⟨k', v'⟩ := x
    by_cases hk : k' = e
    · subst hk
      have hv : v' = l := by
        have hd : dictLookup k' ((k', v') :: t) = some v' := by simp [dictLookup]
        rw [hd] at h
        simpa using h
      subst hv
      have hs : dictSet k' (v' ++ [dep]) ((k', v') :: t) = (k', v' ++ [dep]) :: t := by
        simp [dictSet]
      rw [hs]
      simp only [optSum, List.map_cons, List.sum_cons, List.length_append,
        List.length_cons, List.length_nil]
      omega
    · have hd : dictLookup e ((k', v') :: t) = dictLookup e t := by
        simp [dictLookup, hk]
      rw [hd] at h
      have hs : dictSet e (l ++ [dep]) ((k', v') :: t)
          = (k', v') :: dictSet e (l ++ [dep]) t := by
        simp [dictSet, hk]
      rw [hs]
      simp only [optSum, List.map_cons, List.sum_cons]
      have hi := ih h
      simp only [optSum] at hi
      omega

theorem optSum_addOptional (opt : List (Str × List Dependency)) (e : Str)
    (dep : Dependency) : optSum (addOptional opt e dep) = optSum opt + 1 := by
  unfold addOptional
  cases h : dictLookup e opt with
  | some l => exact optSum_dictSet_found h dep
  | none => simp [optSum_append, optSum]

theorem optSum_foldl_addOptional (dep : Dependency) :
    ∀ (extras : List Str) (opt : List (Str × List Dependency)),
      optSum (extras.foldl (fun o e => addOptional o e dep) opt)
        = optSum opt + extras.length := by
  intro extras
  induction extras with
  | nil =>
    intro opt
    simp
  | cons e es ih =>
    intro opt
    rw [List.foldl_cons, ih, optSum_addOptional]
    simp [Nat.add_assoc, Nat.add_comm]

theorem procReq_skip {r : Str} (h1 : pyStrip r = [])
    (acc : List Dependency × List (Str × List Dependency)) : procReq acc r = acc := by
  unfold procReq
  rw [if_pos h1]

theorem procReq_no_pkg {r : Str} (h1 : ¬pyStrip r = [])
    (h2 : pkgMatch (pyStrip (scanExtras (pyStrip r)).2) = none)
    (acc : List Dependency × List (Str × List Dependency)) : procReq acc r = acc := by
  unfold procReq
  rw [if_neg h1, h2]

theorem procReq_pkg {r pkg rest : Str} (h1 : ¬pyStrip r = [])
    (h2 : pkgMatch (pyStrip (scanExtras (pyStrip r)).2) = some (pkg, rest))
    (acc : List Dependency × List (Str × List Dependency)) :
    procReq acc r
      = if (scanExtras (pyStrip r)).1 = [] then (acc.1 ++ [mkDep pkg rest], acc.2)
        else (acc.1,
          (scanExtras (pyStrip r)).1.foldl
            (fun o e => addOptional o e (mkDep pkg rest)) acc.2) := by
  unfold procReq
  rw [if_neg h1, h2]

theorem reqCount_skip {r : Str} (h1 : pyStrip r = []) : reqCount r = 0 := by
  unfold reqCount
  rw [if_pos h1]

theorem reqCount_no_pkg {r : Str} (h1 : ¬pyStrip r = [])
    (h2 : pkgMatch (pyStrip (scanExtras (pyStrip r)).2) = none) : reqCount r = 0 := by
  unfold reqCount
  rw [if_neg h1, h2]

theorem reqCount_pkg {r pkg rest : Str} (h1 : ¬pyStrip r = [])
    (h2 : pkgMatch (pyStrip (scanExtras (pyStrip r)).2) = some (pkg, rest)) :
    reqCount r
      = if (scanExtras (pyStrip r)).1 = [] then 1 else (scanExtras (pyStrip r)).1.length := by
  unfold reqCount
  rw [if_neg h1, h2]

theorem totalDeps_procReq (acc : List Dependency × List (Str × List Dependency))
    (r : Str) : totalDeps (procReq acc r) = totalDeps acc + reqCount r := by
  by_cases h1 : pyStrip r = []
  · rw [procReq_skip h1, reqCount_skip h1]
    omega
  · cases h2 : pkgMatch (pyStrip (scanExtras (pyStrip r)).2) with
    | none =>
      rw [procReq_no_pkg h1 h2, reqCount_no_pkg h1 h2]
      omega
    | some pr =>
      obtain ⟨pkg, rest⟩ := pr
      rw [procReq_pkg h1 h2, reqCount_pkg h1 h2]
      by_cases h3 : (scanExtras (pyStrip r)).1 = []
      · rw [if_pos h3, if_pos h3]
        simp [totalDeps]
        omega
      · rw [if_neg h3, if_neg h3]
        simp only [totalDeps, optSum_foldl_addOptional]
        omega

theorem totalDeps_foldl_procReq :
    ∀ (reqs : List Str) (acc : List Dependency × List (Str × List Dependency)),
      totalDeps (reqs.foldl procReq acc) = totalDeps acc + (reqs.map reqCount).sum := by
  intro reqs
  induction reqs with
  | nil =>
    intro acc
    simp
  | cons r rs ih =>
    intro acc
    rw [List.foldl_cons, ih, totalDeps_procReq]
    simp [Nat.add_assoc]

theorem procReq_dropped {r : Str} (h : reqDropped r = true)
    (acc : List Dependency × List (Str × List Dependency)) : procReq acc r = acc := by
  unfold reqDropped at h
  by_cases h1 : pyStrip r = []
  · exact procReq_skip h1 acc
  · have he : (pyStrip r).isEmpty = false := by simpa using h1
    rw [he] at h
    simp only [Bool.false_or] at h
    cases h3 : pkgMatch (pyStrip (scanExtras (pyStrip r)).2) with
    | none => exact procReq_no_pkg h1 h3 acc
    | some p =>
      rw [h3] at h
      simp at h

theorem foldl_procReq_all_dropped :
    ∀ (reqs : List Str), (∀ r ∈ reqs, reqDropped r = true) →
      ∀ acc, reqs.foldl procReq acc = acc := by
  intro reqs
  induction reqs with
  | nil =>
    intro _ acc
    rfl
  | cons r rs ih =>
    intro hall acc
    rw [List.foldl_cons, procReq_dropped (hall r (List.mem_cons_self r rs))]
    exact ih (fun r' hr' => hall r' (List.mem_cons_of_mem r hr')) acc

/-- Claim C4, counterexample: a single requirement naming two extras
produces one Dependency copy in each extra's sequence, so the total
Dependency count over all outputs is two from one input requirement,
not strictly less than the number of input requirement strings. -/
theorem multi_extra_count_cx :
    extract_dependencies
      [("Requires-Dist".data, Value.list ["a; extra == 'x'; extra == 'y'".data])]
      = ([], [("x".data, [Dependency.mk "a".data none]),
              ("y".data, [Dependency.mk "a".data none])]) ∧
    totalDeps ([], [("x".data, [Dependency.mk "a".data none]),
              ("y".data, [Dependency.mk "a".data none])]) = 2 ∧
    ¬ (2 < 1) :=
  ⟨rfl, rfl, by decide⟩

/-- Claim C4 as amended: a requirement whose cleaned form the package
pattern rejects (in particular one not starting with a valid
package-name token, or empty after trimming) is omitted from required
and from every extra's sequence, and the total Dependency count summed
over required and all extras' sequences equals the sum over the input
requirements of the per-requirement count: zero for a dropped
requirement, one for a requirement without extra clauses, and the
number of extra clauses otherwise (so the total is smaller than the
input count by exactly the number of unparsable lines only when no
requirement names more than one extra). -/
theorem total_deps_eq_sum (md : List (Str × Value)) (l : List Str)
    (h : dictLookup "Requires-Dist".data md = some (Value.list l)) :
    totalDeps (extract_dependencies md) = (l.map reqCount).sum ∧
    ((∀ r ∈ l, reqDropped r = true) → extract_dependencies md = ([], [])) := by
  constructor
  · unfold extract_dependencies
    rw [getRequiresDist_list h, totalDeps_foldl_procReq]
    simp [totalDeps, optSum]
  · intro hall
    unfold extract_dependencies
    rw [getRequiresDist_list h]
    exact foldl_procReq_all_dropped l hall ([], [])

theorem total_deps_eq_sum_w :
    totalDeps (extract_dependencies
        [("Requires-Dist".data, Value.list ["good>=1".data, "!bad".data])])
      = ((["good>=1".data, "!bad".data]).map reqCount).sum ∧
    extract_dependencies [("Requires-Dist".data, Value.list ["!bad".data])] = ([], []) :=
  ⟨(total_deps_eq_sum
      [("Requires-Dist".data, Value.list ["good>=1".data, "!bad".data])]
      ["good>=1".data, "!bad".data] rfl).1,
   (total_deps_eq_sum [("Requires-Dist".data, Value.list ["!bad".data])]
      ["!bad".data] rfl).2 (by decide)⟩

theorem prefix_append_right {v w x : Str} (h : v <+: w) : v <+: w ++ x := by
  obtain ⟨t, rfl⟩ := h
  exact ⟨t ++ x, by rw [List.append_assoc]⟩

theorem forall2_prefix_concat {vs ws : List Str} {v w : Str}
    (h : List.Forall₂ (· <+: ·) vs ws) (hvw : v <+: w) :
    List.Forall₂ (· <+: ·) (vs ++ [v]) (ws ++ [w]) := by
  induction h with
  | nil => exact List.Forall₂.cons hvw List.Forall₂.nil
  | cons hab htail ih => exact List.Forall₂.cons hab ih

theorem forall2_prefix_extend_last {ws : List Str} :
    ∀ {vs : List Str} {w x : Str},
      List.Forall₂ (· <+: ·) vs (ws ++ [w]) →
      List.Forall₂ (· <+: ·) vs (ws ++ [w ++ x]) := by
  induction ws with
  | nil =>
    intro vs w x h
    rw [List.nil_append] at h ⊢
    cases h with
    | cons hvw hrest =>
      cases hrest
      exact List.Forall₂.cons (prefix_append_right hvw) List.Forall₂.nil
  | cons b bs ih =>
    intro vs w x h
    rw [List.cons_append] at h ⊢
    cases h with
    | cons hab hrest => exact List.Forall₂.cons hab (ih hrest)

theorem keyShape_dest_none {k : Str} {vs : List Str} {result : List (Str × Value)}
    (hs : keyShape k vs result) (hlk : dictLookup k result = none) : vs = [] := by
  cases vs with
  | nil => rfl
  | cons v vs' =>
    cases vs' with
    | nil =>
      by_cases hm : k ∈ multiFields
      · obtain ⟨w, hw, -⟩ : ∃ w, dictLookup k result = some (Value.list [w]) ∧ v <+: w := by
          simpa [keyShape, hm] using hs
        rw [hlk] at hw
        cases hw
      · obtain ⟨w, hw, -⟩ : ∃ w, dictLookup k result = some (Value.str w) ∧ v <+: w := by
          simpa [keyShape, hm] using hs
        rw [hlk] at hw
        cases hw
    | cons v2 vs'' =>
      obtain ⟨ws, hw, -⟩ : ∃ ws, dictLookup k result = some (Value.list ws)
          ∧ List.Forall₂ (· <+: ·) (v :: v2 :: vs'') ws := by
        simpa [keyShape] using hs
      rw [hlk] at hw
      cases hw

theorem keyShape_dest_str {k : Str} {vs : List Str} {result : List (Str × Value)} {s : Str}
    (hs : keyShape k vs result) (hlk : dictLookup k result = some (Value.str s)) :
    ∃ v0, vs = [v0] ∧ k ∉ multiFields ∧ v0 <+: s := by
  cases vs with
  | nil =>
    have : dictLookup k result = none := hs
    rw [hlk] at this
    cases this
  | cons v vs' =>
    cases vs' with
    | nil =>
      by_cases hm : k ∈ multiFields
      · obtain ⟨w, hw, -⟩ : ∃ w, dictLookup k result = some (Value.list [w]) ∧ v <+: w := by
          simpa [keyShape, hm] using hs
        rw [hlk] at hw
        cases hw
      · obtain ⟨w, hw, hp⟩ : ∃ w, dictLookup k result = some (Value.str w) ∧ v <+: w := by
          simpa [keyShape, hm] using hs
        rw [hlk] at hw
        obtain rfl : w = s := by simpa using hw.symm
        exact ⟨v, rfl, hm, hp⟩
    | cons v2 vs'' =>
      obtain ⟨ws, hw, -⟩ : ∃ ws, dictLookup k result = some (Value.list ws)
          ∧ List.Forall₂ (· <+: ·) (v :: v2 :: vs'') ws := by
        simpa [keyShape] using hs
      rw [hlk] at hw
      cases hw

theorem keyShape_dest_list {k : Str} {vs : List Str} {result : List (Str × Value)}
    {ws : List Str} (hs : keyShape k vs result)
    (hlk : dictLookup k result = some (Value.list ws)) :
    vs ≠ [] ∧ List.Forall₂ (· <+: ·) vs ws ∧ (k ∈ multiFields ∨ 2 ≤ vs.length) := by
  cases vs with
  | nil =>
    have : dictLookup k result = none := hs
    rw [hlk] at this
    cases this
  | cons v vs' =>
    cases vs' with
    | nil =>
      by_cases hm : k ∈ multiFields
      · obtain ⟨w, hw, hp⟩ : ∃ w, dictLookup k result = some (Value.list [w]) ∧ v <+: w := by
          simpa [keyShape, hm] using hs
        rw [hlk] at hw
        obtain rfl : [w] = ws := by simpa using hw.symm
        exact ⟨by simp, List.Forall₂.cons hp List.Forall₂.nil, Or.inl hm⟩
      · obtain ⟨w, hw, -⟩ : ∃ w, dictLookup k result = some (Value.str w) ∧ v <+: w := by
          simpa [keyShape, hm] using hs
        rw [hlk] at hw
        cases hw
    | cons v2 vs'' =>
      obtain ⟨ws', hw, hf⟩ : ∃ ws', dictLookup k result = some (Value.list ws')
          ∧ List.Forall₂ (· <+: ·) (v :: v2 :: vs'') ws' := by
        simpa [keyShape] using hs
      rw [hlk] at hw
      obtain rfl : ws' = ws := by simpa using hw.symm
      exact ⟨by simp, hf, Or.inr (by simp)⟩

theorem keyShape_build_list {k : Str} {vs ws : List Str} {result : List (Str × Value)}
    (hne : vs ≠ []) (hlk : dictLookup k result = some (Value.list ws))
    (hf : List.Forall₂ (· <+: ·) vs ws) (hok : k ∈ multiFields ∨ 2 ≤ vs.length) :
    keyShape k vs result := by
  cases vs with
  | nil => exact absurd rfl hne
  | cons v vs' =>
    cases vs' with
    | nil =>
      have hm : k ∈ multiFields := by
        rcases hok with hok | hok
        · exact hok
        · simp at hok
      cases hf with
      | cons hvw htail =>
        cases htail
        next w =>
          exact by simpa [keyShape, hm] using ⟨w, hlk, hvw⟩
    | cons v2 vs'' =>
      exact by simpa [keyShape] using ⟨ws, hlk, hf⟩

theorem keyShape_of_lookup_eq {k : Str} {vs : List Str} {r1 r2 : List (Str × Value)}
    (h : dictLookup k r2 = dictLookup k r1) (hs : keyShape k vs r1) :
    keyShape k vs r2 := by
  cases hl : dictLookup k r1 with
  | none =>
    obtain rfl : vs = [] := keyShape_dest_none hs hl
    show dictLookup k r2 = none
    rw [h, hl]
  | some val =>
    cases val with
    | str s =>
      obtain ⟨v0, rfl, hm, hp⟩ := keyShape_dest_str hs hl
      have : ∃ w, dictLookup k r2 = some (Value.str w) ∧ v0 <+: w :=
        ⟨s, by rw [h, hl], hp⟩
      simpa [keyShape, hm] using this
    | list ws =>
      obtain ⟨hne, hf, hok⟩ := keyShape_dest_list hs hl
      exact keyShape_build_list hne (by rw [h, hl]) hf hok

theorem selfPrefix {v : Str} : v <+: v := ⟨[], by simp⟩

theorem lineKV_of_matchKV_none {k line : Str} (hm : matchKV line = none) :
    lineKV k line = none := by
  simp [lineKV, hm]

theorem lineKV_of_matchKV_eq {k line v : Str} (hm : matchKV line = some (k, v)) :
    lineKV k line = some v := by
  simp [lineKV, hm]

theorem lineKV_of_matchKV_ne {k k' line v : Str} (hm : matchKV line = some (k', v))
    (h : k' ≠ k) : lineKV k line = none := by
  simp [lineKV, hm, h]

theorem keyShape_procLine {result : List (Str × Value)} {curKey : Option Str}
    {line : Str} {st' : PState} {k : Str} {vs : List Str}
    (hg : goodState (result, curKey)) (hs : keyShape k vs result)
    (hp : procLine (result, curKey) line = some st') :
    keyShape k (vs ++ (lineKV k line).toList) st'.1 := by
  cases hc : contLine line with
  | false =>
    rw [procLine_not_cont curKey hc] at hp
    obtain rfl : procKV result curKey line = st' := by simpa using hp
    cases hm : matchKV line with
    | none =>
      rw [procKV_no_match curKey hm, lineKV_of_matchKV_none hm]
      simpa using hs
    | some kv =>
      obtain ⟨k', v⟩ := kv
      by_cases hk : k' = k
      · subst hk
        rw [lineKV_of_matchKV_eq hm]
        cases hl : dictLookup k' result with
        | none =>
          obtain rfl : vs = [] := keyShape_dest_none hs hl
          rw [procKV_new curKey hm hl]
          by_cases hmem : k' ∈ multiFields
          · rw [if_pos hmem]
            have : ∃ w, dictLookup k' (dictSet k' (Value.list [v]) result)
                = some (Value.list [w]) ∧ v <+: w :=
              ⟨v, dictLookup_dictSet_self k' (Value.list [v]) result, selfPrefix⟩
            simpa [keyShape, hmem] using this
          · rw [if_neg hmem]
            have : ∃ w, dictLookup k' (dictSet k' (Value.str v) result)
                = some (Value.str w) ∧ v <+: w :=
              ⟨v, dictLookup_dictSet_self k' (Value.str v) result, selfPrefix⟩
            simpa [keyShape, hmem] using this
        | some val =>
          cases val with
          | str s =>
            obtain ⟨v0, rfl, hmem, hp0⟩ := keyShape_dest_str hs hl
            rw [procKV_str curKey hm hl]
            have : ∃ ws, dictLookup k' (dictSet k' (Value.list [s, v]) result)
                = some (Value.list ws) ∧ List.Forall₂ (· <+: ·) [v0, v] ws :=
              ⟨[s, v], dictLookup_dictSet_self k' (Value.list [s, v]) result,
               List.Forall₂.cons hp0 (List.Forall₂.cons selfPrefix List.Forall₂.nil)⟩
            simpa [keyShape] using this
          | list ws0 =>
            obtain ⟨hne, hf, hok⟩ := keyShape_dest_list hs hl
            rw [procKV_list curKey hm hl]
            refine keyShape_build_list (by simp)
              (dictLookup_dictSet_self k' (Value.list (ws0 ++ [v])) result)
              (forall2_prefix_concat hf selfPrefix) (Or.inr ?_)
            have := List.length_pos.mpr hne
            simp only [Option.toList_some, List.length_append, List.length_cons,
              List.length_nil]
            omega
      · rw [lineKV_of_matchKV_ne hm hk, Option.toList_none, List.append_nil]
        have hlookup : dictLookup k (procKV result curKey line).1 = dictLookup k result := by
          cases hl : dictLookup k' result with
          | none =>
            rw [procKV_new curKey hm hl]
            exact dictLookup_dictSet_ne hk _ result
          | some val =>
            cases val with
            | str s =>
              rw [procKV_str curKey hm hl]
              exact dictLookup_dictSet_ne hk _ result
            | list l0 =>
              rw [procKV_list curKey hm hl]
              exact dictLookup_dictSet_ne hk _ result
        exact keyShape_of_lookup_eq hlookup hs
  | true =>
    have hmnone : matchKV line = none := matchKV_of_contLine hc
    rw [lineKV_of_matchKV_none hmnone, Option.toList_none, List.append_nil]
    cases curKey with
    | none =>
      have heq : procLine (result, none) line = some (result, none) := by
        show some (procKV result none line) = some (result, none)
        rw [procKV_no_match none hmnone]
      rw [heq] at hp
      obtain rfl : ((result, none) : PState) = st' := by simpa using hp
      exact hs
    | some c =>
      have hsome := hg.1 c rfl
      cases hl : dictLookup c result with
      | none =>
        rw [show ((result, some c) : PState).1 = result from rfl, hl] at hsome
        simp at hsome
      | some val =>
        cases val with
        | str s =>
          rw [procLine_cont_str hc hl] at hp
          obtain rfl : ((dictSet c (Value.str (s ++ ' ' :: pyStrip line)) result,
              some c) : PState) = st' := by simpa using hp
          by_cases hck : c = k
          · subst hck
            obtain ⟨v0, rfl, hmem, hp0⟩ := keyShape_dest_str hs hl
            have : ∃ w, dictLookup c
                  (dictSet c (Value.str (s ++ ' ' :: pyStrip line)) result)
                = some (Value.str w) ∧ v0 <+: w :=
              ⟨s ++ ' ' :: pyStrip line,
               dictLookup_dictSet_self c (Value.str (s ++ ' ' :: pyStrip line)) result,
               prefix_append_right hp0⟩
            simpa [keyShape, hmem] using this
          · exact keyShape_of_lookup_eq (dictLookup_dictSet_ne hck _ result) hs
        | list l0 =>
          have hne0 : l0 ≠ [] := hg.2 c l0 hl
          obtain ⟨l0', x, rfl⟩ : ∃ l0' x, l0 = l0' ++ [x] := by
            rcases List.eq_nil_or_concat l0 with h0 | ⟨l0', x, h0⟩
            · exact absurd h0 hne0
            · exact ⟨l0', x, by simpa [List.concat_eq_append] using h0⟩
          rw [procLine_cont_list hc hl] at hp
          obtain rfl : ((dictSet c (Value.list (l0' ++ [x ++ ' ' :: pyStrip line]))
              result, some c) : PState) = st' := by simpa using hp
          by_cases hck : c = k
          · subst hck
            obtain ⟨hne, hf, hok⟩ := keyShape_dest_list hs hl
            exact keyShape_build_list hne
              (dictLookup_dictSet_self c
                (Value.list (l0' ++ [x ++ ' ' :: pyStrip line])) result)
              (forall2_prefix_extend_last hf) hok
          · exact keyShape_of_lookup_eq (dictLookup_dictSet_ne hck _ result) hs

theorem headerKeyValues_cons (k l : Str) (ls : List Str) :
    headerKeyValues k (l :: ls) = (lineKV k l).toList ++ headerKeyValues k ls := by
  unfold headerKeyValues
  rw [List.filterMap_cons]
  cases h : lineKV k l <;> simp

theorem keyShape_foldlM {k : Str} :
    ∀ (lines : List Str) {st st' : PState} {vs : List Str},
      goodState st → keyShape k vs st.1 →
      List.foldlM procLine st lines = some st' →
      keyShape k (vs ++ headerKeyValues k lines) st'.1 := by
  intro lines
  induction lines with
  | nil =>
    intro st st' vs hg hs hf
    obtain rfl : st = st' := by simpa using hf
    rw [show headerKeyValues k ([] : List Str) = [] from rfl, List.append_nil]
    exact hs
  | cons l ls ih =>
    intro st st' vs hg hs hf
    rw [List.foldlM_cons] at hf
    obtain ⟨st1, h1, hg1⟩ := procLine_good l hg
    rw [h1] at hf
    have hf1 : List.foldlM procLine st1 ls = some st' := hf
    have hs1 := keyShape_procLine hg hs h1
    have hmain := ih hg1 hs1 hf1
    rw [headerKeyValues_cons, ← List.append_assoc]
    exact hmain

/-- Claim C6, counterexample: the field Description is not declared
multi-valued, and a document with two header occurrences of it followed
by a description block ends with a scalar Description (the block
overwrites the two-element sequence built in the header), so the second
occurrence does not leave a two-element sequence in the result. -/
theorem description_overwrite_cx :
    parse_metadata "Description: a\nDescription: b\n\nblock"
      = some [("Description".data, Value.str "block".data)] ∧
    some [("Description".data, Value.str "block".data)]
      ≠ some [("Description".data, Value.list ["a".data, "b".data])] :=
  ⟨rfl, by decide⟩

/-- Claim C6 as amended: for every parsed document and every key that is
not Description-with-a-description-block (for Description the free-text
block overwrites the header value with a scalar): a single header
occurrence of a declared multi-valued field is stored as a one-element
sequence, never a bare scalar; a single occurrence of any other field
is stored as a scalar string; and a second occurrence converts the
stored value to a two-element sequence preserving order of appearance
(the stored texts extend the occurrence values, since continuation
lines may append to them). -/
theorem occurrence_shape (text : String) (k : Str)
    (hdesc : k = "Description".data → (splitHD (splitLines (pyStrip text.data))).2 = []) :
    ∃ m, parse_metadata text = some m ∧
      (∀ v, headerKeyValues k (splitHD (splitLines (pyStrip text.data))).1 = [v] →
        (k ∈ multiFields → ∃ w, dictLookup k m = some (Value.list [w]) ∧ v <+: w) ∧
        (k ∉ multiFields → ∃ w, dictLookup k m = some (Value.str w) ∧ v <+: w)) ∧
      (∀ v₁ v₂,
        headerKeyValues k (splitHD (splitLines (pyStrip text.data))).1 = [v₁, v₂] →
        ∃ w₁ w₂, dictLookup k m = some (Value.list [w₁, w₂]) ∧ v₁ <+: w₁ ∧ v₂ <+: w₂) := by
  obtain ⟨st, hf, hg⟩ := procHeader_good (splitHD (splitLines (pyStrip text.data))).1
  have hf' : List.foldlM procLine (([], none) : PState)
      (splitHD (splitLines (pyStrip text.data))).1 = some st := hf
  have hshape : keyShape k
      (headerKeyValues k (splitHD (splitLines (pyStrip text.data))).1) st.1 := by
    have h0 := keyShape_foldlM (splitHD (splitLines (pyStrip text.data))).1
      goodState_init
      (show keyShape k ([] : List Str) ((([], none) : PState)).1 from rfl) hf'
    simpa using h0
  obtain ⟨m, hm, hlk⟩ : ∃ m, parse_metadata text = some m
      ∧ dictLookup k m = dictLookup k st.1 := by
    by_cases hd2 : (splitHD (splitLines (pyStrip text.data))).2 = []
    · exact ⟨st.1, by rw [parse_metadata_eq hf, if_pos hd2], rfl⟩
    · have hk : ("Description".data : Str) ≠ k := fun h => hd2 (hdesc h.symm)
      exact ⟨_, by rw [parse_metadata_eq hf, if_neg hd2],
        dictLookup_dictSet_ne hk _ st.1⟩
  refine ⟨m, hm, ?_, ?_⟩
  · intro v hv
    rw [hv] at hshape
    constructor
    · intro hmem
      obtain ⟨w, hw, hp⟩ : ∃ w, dictLookup k st.1 = some (Value.list [w]) ∧ v <+: w := by
        simpa [keyShape, hmem] using hshape
      exact ⟨w, by rw [hlk, hw], hp⟩
    · intro hmem
      obtain ⟨w, hw, hp⟩ : ∃ w, dictLookup k st.1 = some (Value.str w) ∧ v <+: w := by
        simpa [keyShape, hmem] using hshape
      exact ⟨w, by rw [hlk, hw], hp⟩
  · intro v₁ v₂ hv
    rw [hv] at hshape
    obtain ⟨ws, hw, hfor⟩ : ∃ ws, dictLookup k st.1 = some (Value.list ws)
        ∧ List.Forall₂ (· <+: ·) [v₁, v₂] ws := by
      simpa [keyShape] using hshape
    cases hfor with
    | cons h1 htail =>
      cases htail with
      | cons h2 htail2 =>
        cases htail2
        exact ⟨_, _, by rw [hlk, hw], h1, h2⟩

theorem occurrence_shape_w :
    ∃ m, parse_metadata "Name: a\nName: b" = some m ∧
      (∀ v, headerKeyValues "Name".data
          (splitHD (splitLines (pyStrip "Name: a\nName: b".data))).1 = [v] →
        ("Name".data ∈ multiFields →
          ∃ w, dictLookup "Name".data m = some (Value.list [w]) ∧ v <+: w) ∧
        ("Name".data ∉ multiFields →
          ∃ w, dictLookup "Name".data m = some (Value.str w) ∧ v <+: w)) ∧
      (∀ v₁ v₂, headerKeyValues "Name".data
          (splitHD (splitLines (pyStrip "Name: a\nName: b".data))).1 = [v₁, v₂] →
        ∃ w₁ w₂, dictLookup "Name".data m = some (Value.list [w₁, w₂])
          ∧ v₁ <+: w₁ ∧ v₂ <+: w₂) :=
  occurrence_shape "Name: a\nName: b" "Name".data (fun h => absurd h (by decide))

end PipBrowse

